import Mathlib

/-!
Verification development for the starry HTTP stack (Rust).
Each Rust function under scrutiny is shallowly embedded as an executable
Lean definition; machine strings are Lean strings, byte streams are lists
of natural numbers below 256, and Rust HashMap values are association
lists whose observable behaviour (get, insert, remove) matches the map.
-/

namespace Starry

/-- Decidable equality for Except results, so that evaluations of the
embedded fallible functions can be settled by decide. -/
instance {ε α : Type} [DecidableEq ε] [DecidableEq α] : DecidableEq (Except ε α) := fun a b =>
  match a, b with
  | .error e, .error f =>
      if h : e = f then isTrue (by rw [h]) else isFalse (fun hh => h (by injection hh))
  | .error _, .ok _ => isFalse (fun hh => Except.noConfusion hh)
  | .ok _, .error _ => isFalse (fun hh => Except.noConfusion hh)
  | .ok x, .ok y =>
      if h : x = y then isTrue (by rw [h]) else isFalse (fun hh => h (by injection hh))

/-! ### Character-level string helpers

Rust slices strings with split, trim, to_lowercase and starts_with.
The embeddings below mirror those operations at the character-list level
so that every definition reduces by kernel computation.
-/

/-- Rust str::split with a one-character separator: splits on every
occurrence, keeping empty pieces, and yields one (possibly empty) piece
even for the empty input. -/
def splitCharAux (sep : Char) : List Char → List Char → List String
  | [], acc => [String.mk acc.reverse]
  | c :: cs, acc =>
      if c = sep then String.mk acc.reverse :: splitCharAux sep cs []
      else splitCharAux sep cs (c :: acc)

/-- Rust str::split(sep) for a single-character separator. -/
def splitChar (sep : Char) (s : String) : List String :=
  splitCharAux sep s.data []

/-- Rust str::trim restricted to ASCII whitespace, which is all the
sources ever feed it. -/
def trimAscii (s : String) : String :=
  String.mk (((s.data.dropWhile Char.isWhitespace).reverse.dropWhile Char.isWhitespace).reverse)

/-- Rust str::to_lowercase on ASCII data. -/
def strToLower (s : String) : String :=
  String.mk (s.data.map Char.toLower)

/-- Rust str::starts_with for a one-character pattern. -/
def strStartsWith (s : String) (c : Char) : Bool :=
  match s.data with
  | [] => false
  | d :: _ => d = c

/-- Rust str slicing s[1..] (drop the first character; all call sites
drop a one-byte ASCII marker). -/
def strDrop1 (s : String) : String :=
  String.mk (s.data.drop 1)

/-- The UTF-8 bytes of an ASCII string, as natural numbers. -/
def strBytes (s : String) : List Nat :=
  s.data.map Char.toNat

/-- Decimal digit accumulation; a non-digit character rejects. -/
def digitsToNatAux : List Char → Nat → Option Nat
  | [], acc => some acc
  | c :: cs, acc =>
      if c.isDigit then digitsToNatAux cs (acc * 10 + (c.toNat - 48)) else none

/-- A non-empty all-digit character list as a natural number. -/
def digitsToNat : List Char → Option Nat
  | [] => none
  | ds => digitsToNatAux ds 0

/-- Rust str::parse for signed integers: an optional sign followed by at
least one decimal digit, nothing else. -/
def parseIntRust (s : String) : Option Int :=
  match s.data with
  | [] => none
  | '-' :: ds => (digitsToNat ds).map (fun n => -(n : Int))
  | '+' :: ds => (digitsToNat ds).map (fun n => (n : Int))
  | ds => (digitsToNat ds).map (fun n => (n : Int))

/-! ### Values (src/http/values.rs)

Values wraps HashMap of String to Vec of String.  The map is modeled as an
association list with unique keys; insert replaces the first binding of the
key or appends a fresh one, remove drops the bindings of the key.  Iteration
order of the Rust HashMap is unspecified, so no claim relies on entry order.
-/

structure Values where
  entries : List (String × List String)
  deriving DecidableEq

namespace Values

/-- Values::new. -/
def new : Values := ⟨[]⟩

/-- HashMap::get on the backing map. -/
def lookup (m : Values) (k : String) : Option (List String) :=
  (m.entries.find? (fun p => p.1 = k)).map Prod.snd

/-- HashMap::insert on the backing map (replace the binding of the key,
or add a fresh binding). -/
def insertV (es : List (String × List String)) (k : String) (v : List String) :
    List (String × List String) :=
  match es with
  | [] => [(k, v)]
  | (k', v') :: rest =>
      if k' = k then (k, v) :: rest else (k', v') :: insertV rest k v

/-- Values::set — insert the key with the one-element vector. -/
def set (m : Values) (k v : String) : Values :=
  ⟨insertV m.entries k [v]⟩

/-- Values::add — append the value to the existing vector of the key, or
insert a fresh one-element vector. -/
def add (m : Values) (k v : String) : Values :=
  match m.lookup k with
  | some src => ⟨insertV m.entries k (src ++ [v])⟩
  | none => ⟨insertV m.entries k [v]⟩

/-- Values::get — the first element of the stored vector.  The source
indexes src[0]; stored vectors are never empty, so the default never
surfaces. -/
def get (m : Values) (k : String) : Option String :=
  match m.lookup k with
  | some src => some (src.headD "")
  | none => none

/-- Values::vec. -/
def vec (m : Values) (k : String) : Option (List String) :=
  m.lookup k

/-- Values::contain. -/
def contain (m : Values) (k : String) : Bool :=
  match m.lookup k with
  | some _ => true
  | none => false

/-- Values::del — HashMap::remove, returning the first element of the
removed vector together with the shrunken map. -/
def del (m : Values) (k : String) : Option String × Values :=
  match m.lookup k with
  | some src => (some (src.headD ""), ⟨m.entries.filter (fun p => ¬ p.1 = k)⟩)
  | none => (none, m)

end Values

/-! ### Version (src/http/version.rs) -/

inductive Protocol where
  | Http10
  | Http11
  | Http2
  deriving DecidableEq

structure Version where
  protocol : Protocol
  major : Nat
  minor : Nat
  deriving DecidableEq

namespace Version

def HTTP_10 : Version := ⟨Protocol.Http10, 1, 0⟩

def HTTP_11 : Version := ⟨Protocol.Http11, 1, 1⟩

def HTTP_2 : Version := ⟨Protocol.Http2, 2, 0⟩

/-- Version::as_ref, the wire name of the version. -/
def asRef (v : Version) : String :=
  match v.protocol with
  | Protocol.Http10 => "HTTP/1.0"
  | Protocol.Http11 => "HTTP/1.1"
  | Protocol.Http2 => "HTTP/2.0"

end Version

/-! ### Header (src/http/header/header.rs)

Header is a type alias of Values; keys are header names.
-/

abbrev Header := Values

namespace Header

/-- Header::check_close (header.rs lines 97-110).  The source consults
contain("close") and contain("keep-alive"), which test for header NAMES
equal to close and keep-alive, and on the remove path deletes the
Connection key with an unwrap; a None there is an unwrap panic, modeled
as the none result. -/
def check_close (h : Header) (version : Version) (remove : Bool) :
    Option (Bool × Header) :=
  if version.major < 1 then some (true, h)
  else
    let header_has_close := h.contain "close"
    if version.asRef = "HTTP/1.0" then
      some (header_has_close || !(h.contain "keep-alive"), h)
    else
      if header_has_close && remove then
        match h.del "Connection" with
        | (some _, h2) => some (header_has_close, h2)
        | (none, _) => none
      else some (header_has_close, h)

end Header

/-! ### Method (src/http/method.rs)

The Rust Method is a wrapper around a private twelve-constructor enum;
the wrapper is flattened here.  Handlers are identified by the method
constants OPTIONS, GET, ... which correspond one to one with the
constructors below.
-/

inductive Method where
  | Options
  | Get
  | Post
  | Put
  | Delete
  | Head
  | Trace
  | Connect
  | Patch
  | Link
  | UnLink
  | Pri
  deriving DecidableEq, Fintype

namespace Method

/-- Method::as_str. -/
def as_str : Method → String
  | Options => "OPTIONS"
  | Get => "GET"
  | Post => "POST"
  | Put => "PUT"
  | Delete => "DELETE"
  | Head => "HEAD"
  | Trace => "TRACE"
  | Connect => "CONNECT"
  | Patch => "PATCH"
  | Link => "LINK"
  | UnLink => "UNLINK"
  | Pri => "PRI"

/-- Method::from_bytes (method.rs lines 243-275): a length-switched byte
compare; the empty input parses as GET.  The Rust error carries the lossy
rendering of the input; the message text is abbreviated here. -/
def from_bytes (src : List Nat) : Except String Method :=
  if src.length = 0 then .ok Get
  else if src.length = 3 then
    if src = strBytes "GET" then .ok Get
    else if src = strBytes "PUT" then .ok Put
    else if src = strBytes "PRI" then .ok Pri
    else .error "invalid method!"
  else if src.length = 4 then
    if src = strBytes "POST" then .ok Post
    else if src = strBytes "HEAD" then .ok Head
    else if src = strBytes "LINK" then .ok Link
    else .error "invalid method!"
  else if src.length = 5 then
    if src = strBytes "PATCH" then .ok Patch
    else if src = strBytes "TRACE" then .ok Trace
    else .error "invalid method!"
  else if src.length = 6 then
    if src = strBytes "DELETE" then .ok Delete
    else if src = strBytes "UNLINK" then .ok UnLink
    else .error "invalid method!"
  else if src.length = 7 then
    if src = strBytes "OPTIONS" then .ok Options
    else if src = strBytes "CONNECT" then .ok Connect
    else .error "invalid method!"
  else .error "invalid method!"

/-- The closed method set, in the order of the Rust constant block. -/
def allMethods : List Method :=
  [Options, Get, Post, Put, Delete, Head, Trace, Connect, Patch, Link, UnLink, Pri]

end Method

/-! ### AcceptEncoding (src/http/header/encode_type.rs) -/

inductive AcceptEncoding where
  | GZip
  | Deflate
  | Br
  | ZLib
  | NoneAE
  deriving DecidableEq

namespace AcceptEncoding

/-- AcceptEncoding::as_str; the None variant renders as the empty
string. -/
def as_str : AcceptEncoding → String
  | GZip => "gzip"
  | Deflate => "deflate"
  | Br => "br"
  | ZLib => "zlib"
  | NoneAE => ""

/-- From&lt;&str&gt; for AcceptEncoding: exact match of the piece,
everything else is the None variant. -/
def fromStr (src : String) : AcceptEncoding :=
  if src = "gzip" then GZip
  else if src = "deflate" then Deflate
  else if src = "br" then Br
  else if src = "zlib" then ZLib
  else NoneAE

/-- The loop body of AcceptEncoding::best over the comma-split pieces,
threading the running result.  Equality tests in the source go through
as_str, which coincides with constructor equality on the variants
produced by fromStr. -/
def bestGo : List String → Option AcceptEncoding → Option AcceptEncoding
  | [], res => res
  | s :: rest, res =>
      let this := fromStr s
      if this.as_str ≠ "" then
        if this = GZip then some GZip
        else if this = Deflate then bestGo rest (some Deflate)
        else if this = ZLib ∧ (res.getD NoneAE) ≠ Deflate then bestGo rest (some ZLib)
        else bestGo rest res
      else bestGo rest res

/-- AcceptEncoding::best (encode_type.rs lines 25-42): trim the header
value, split on the comma, scan the pieces preferring gzip, then
deflate, then zlib; the break on gzip is the early return. -/
def best (src : String) : Option AcceptEncoding :=
  bestGo (splitChar ',' (trimAscii src)) none

end AcceptEncoding

/-! ### Routing trie (src/server/node.rs)

A Node stores the registered pattern (at complete nodes), its own piece
label (the wildcard marker is the question-mark string), the stored
wildcard binding name, the handler, and the child list.  Rust handlers
are plain function pointers; they are identified here by a natural
number.  The extend payload (filters and limiter) is orthogonal to
insertion and lookup and is omitted; registering it only spawns the
limiter thread, a side effect outside this embedding.
-/

inductive Node where
  | mk (pattern : Option String) (pattern_piece : String)
       (pattern_piece_value : Option String) (handler : Option Nat)
       (next_nodes : List Node)

namespace Node

@[simp] def pattern : Node → Option String
  | mk p _ _ _ _ => p

@[simp] def pattern_piece : Node → String
  | mk _ pp _ _ _ => pp

@[simp] def pattern_piece_value : Node → Option String
  | mk _ _ ppv _ _ => ppv

@[simp] def handler : Node → Option Nat
  | mk _ _ _ h _ => h

@[simp] def next_nodes : Node → List Node
  | mk _ _ _ _ ns => ns

/-- Node::new. -/
def new : Node := mk none "" none none []

end Node

/-- Field bindings: the HashMap of String to String returned by lookup,
modeled as an association list. -/
abbrev Fields := List (String × String)

/-- HashMap::insert on the bindings map: overwrite the binding of the
key if present, otherwise add it. -/
def mapInsert (m : Fields) (k v : String) : Fields :=
  if m.any (fun p => p.1 = k) then
    m.map (fun p => if p.1 = k then (k, v) else p)
  else (k, v) :: m

/-- HashMap::get on the bindings map. -/
def mapGet (m : Fields) (k : String) : Option String :=
  (m.find? (fun p => p.1 = k)).map Prod.snd

namespace Node

/-- The child scan shared by add_fn and create_next_node
(node.rs lines 184-221): walk the children in order; on the first child
whose piece label equals the converted piece descend via the supplied
continuation, otherwise append a fresh child at the end and descend into
it.  The continuation stands for the recursive add_split call at the
incremented index. -/
def addScan (asp : Node → Except String Node) (pp : String) (ppv : Option String) :
    List Node → Except String (List Node)
  | [] =>
      match asp (Node.mk none pp ppv none []) with
      | .ok nn => .ok [nn]
      | .error e => .error e
  | c :: cs =>
      if c.pattern_piece = pp then
        match asp c with
        | .ok c2 => .ok (c2 :: cs)
        | .error e => .error e
      else
        match addScan asp pp ppv cs with
        | .ok cs2 => .ok (c :: cs2)
        | .error e => .error e

/-- Node::add_split fused with Node::add_fn (node.rs lines 184-255).
add_fn is only ever invoked with the index strictly below the segment
count, so the pair is equivalent to this single recursion on the
remaining segments: at the end of the segments the current node becomes
the complete node (a second registration of the same pattern is the
duplicate-resource panic, modeled as the error result); otherwise the
segment is converted (a leading colon becomes the wildcard marker with
the stored binding name) and the child scan descends. -/
def add_split : Node → String → List String → Nat → Except String Node
  | n, pat, [], h =>
      match n.pattern with
      | some _ => .error "http server resource already exist"
      | none => .ok (Node.mk (some pat) n.pattern_piece n.pattern_piece_value (some h) n.next_nodes)
  | n, pat, piece :: rest, h =>
      let pp := if strStartsWith piece ':' then "?" else piece
      let ppv := if strStartsWith piece ':' then some (strDrop1 piece) else none
      match addScan (fun c => add_split c pat rest h) pp ppv n.next_nodes with
      | .ok ns => .ok (Node.mk n.pattern n.pattern_piece n.pattern_piece_value n.handler ns)
      | .error e => .error e

/-- Node::add (node.rs lines 166-174): a pattern not beginning with the
slash is a panic, modeled as the error result; otherwise split on the
slash, drop the leading empty segment, and insert. -/
def add (n : Node) (pat : String) (h : Nat) : Except String Node :=
  if !strStartsWith pat '/' then .error "path must begin with / in http server!"
  else add_split n pat ((splitChar '/' pat).drop 1) h

/-- The child scan of Node::fetch_fn (node.rs lines 271-312): children
are visited in insertion order; a child is entered when its piece label
equals the request segment, or else when its piece label is the wildcard
marker, in which case the stored binding name is mapped to the segment
on the way back up; a child whose subtree fails is skipped and the scan
continues.  The continuation stands for fetch_split at the incremented
index: the boolean is the is_self flag of the source.  The source
unwraps the stored binding name of a wildcard node; patterns written
with the colon syntax always store it, so the default never surfaces. -/
def fetchScan (fsp : Node → Bool × Option (Node × Fields)) (piece : String) :
    List Node → Option (Node × Fields)
  | [] => none
  | c :: cs =>
      if c.pattern_piece = piece then
        match fsp c with
        | (true, _) => some (c, [])
        | (false, some res) => some res
        | (false, none) => fetchScan fsp piece cs
      else if c.pattern_piece = "?" then
        match fsp c with
        | (true, _) => some (c, mapInsert [] (c.pattern_piece_value.getD "") piece)
        | (false, some (nd, fields)) =>
            some (nd, mapInsert fields (c.pattern_piece_value.getD "") piece)
        | (false, none) => fetchScan fsp piece cs
      else fetchScan fsp piece cs

/-- Node::fetch_fn (node.rs lines 271-312) on the remaining request
segments.  fetch_fn is only invoked below the segment count, and
fetch_split (lines 322-330) reports is_self exactly when the segments
are exhausted, without any inspection of the handler. -/
def fetch_fn : Node → List String → Option (Node × Fields)
  | _, [] => none
  | n, piece :: rest =>
      fetchScan
        (fun c =>
          match rest with
          | [] => (true, none)
          | r :: rs => (false, fetch_fn c (r :: rs)))
        piece n.next_nodes

/-- Node::fetch_split (node.rs lines 322-330). -/
def fetch_split (n : Node) (rest : List String) : Bool × Option (Node × Fields) :=
  match rest with
  | [] => (true, none)
  | _ :: _ => (false, fetch_fn n rest)

/-- Node::fetch (node.rs lines 260-266): split the request path on the
slash, drop the leading empty segment, and search. -/
def fetch (n : Node) (pat : String) : Option (Node × Fields) :=
  fetch_fn n ((splitChar '/' pat).drop 1)

end Node

/-! ### Root (src/server/node.rs lines 25-101): twelve independent
per-method roots. -/

structure Root where
  root_option : Node
  root_get : Node
  root_post : Node
  root_put : Node
  root_delete : Node
  root_head : Node
  root_trace : Node
  root_connect : Node
  root_patch : Node
  root_link : Node
  root_unlink : Node
  root_pri : Node

namespace Root

def new : Root :=
  ⟨Node.new, Node.new, Node.new, Node.new, Node.new, Node.new,
   Node.new, Node.new, Node.new, Node.new, Node.new, Node.new⟩

/-- Root::add: dispatch the registration to the root of the method. -/
def add (r : Root) (pat : String) (m : Method) (h : Nat) : Except String Root :=
  match m with
  | .Options => (r.root_option.add pat h).map (fun n => { r with root_option := n })
  | .Get => (r.root_get.add pat h).map (fun n => { r with root_get := n })
  | .Post => (r.root_post.add pat h).map (fun n => { r with root_post := n })
  | .Put => (r.root_put.add pat h).map (fun n => { r with root_put := n })
  | .Delete => (r.root_delete.add pat h).map (fun n => { r with root_delete := n })
  | .Head => (r.root_head.add pat h).map (fun n => { r with root_head := n })
  | .Trace => (r.root_trace.add pat h).map (fun n => { r with root_trace := n })
  | .Connect => (r.root_connect.add pat h).map (fun n => { r with root_connect := n })
  | .Patch => (r.root_patch.add pat h).map (fun n => { r with root_patch := n })
  | .Link => (r.root_link.add pat h).map (fun n => { r with root_link := n })
  | .UnLink => (r.root_unlink.add pat h).map (fun n => { r with root_unlink := n })
  | .Pri => (r.root_pri.add pat h).map (fun n => { r with root_pri := n })

/-- Root::fetch: dispatch the lookup to the root of the method. -/
def fetch (r : Root) (pat : String) (m : Method) : Option (Node × Fields) :=
  match m with
  | .Options => r.root_option.fetch pat
  | .Get => r.root_get.fetch pat
  | .Post => r.root_post.fetch pat
  | .Put => r.root_put.fetch pat
  | .Delete => r.root_delete.fetch pat
  | .Head => r.root_head.fetch pat
  | .Trace => r.root_trace.fetch pat
  | .Connect => r.root_connect.fetch pat
  | .Patch => r.root_patch.fetch pat
  | .Link => r.root_link.fetch pat
  | .UnLink => r.root_unlink.fetch pat
  | .Pri => r.root_pri.fetch pat

end Root

/-! ### Cookie (src/http/cookie.rs)

The cookie record and its Set-Cookie wire forms.  The expires attribute
is excluded from the embedding: Cookie::to_string serializes it through
Time::now() plus the stored duration (an impure read of the wall clock)
and read_set_cookies parses it with the chrono RFC 1123 parser; no claim
settled here touches that attribute.
-/

inductive SameSite where
  | Strict
  | Lax
  | None
  deriving DecidableEq

structure Cookie where
  name : String
  value : String
  path : Option String
  domain : Option String
  max_age : Option Int
  secure : Bool
  httponly : Bool
  same_site : Option SameSite
  deriving DecidableEq

namespace Cookie

/-- Default for Cookie. -/
def default : Cookie :=
  ⟨"", "", none, none, none, false, false, none⟩

/-- ToString for Cookie (cookie.rs lines 249-293), the Set-Cookie wire
form: the name=value pair (empty when either part is empty), then Path,
Domain, HttpOnly, Secure, Max-Age and SameSite in the order of the
source. -/
def toWire (c : Cookie) : String :=
  let s := if c.name = "" then "" else if c.value = "" then "" else c.name ++ "=" ++ c.value
  let s := match c.path with
    | some p => s ++ "; Path=" ++ p
    | none => s
  let s := match c.domain with
    | some d => s ++ "; Domain=" ++ d
    | none => s
  let s := if c.httponly then s ++ "; HttpOnly" else s
  let s := if c.secure then s ++ "; Secure" else s
  let s := match c.max_age with
    | some m => s ++ "; Max-Age=" ++ toString m
    | none => s
  let s := match c.same_site with
    | some SameSite.None => s ++ "; SameSite=None"
    | some SameSite.Strict => s ++ "; SameSite=Strict"
    | some SameSite.Lax => s ++ "; SameSite=Lax"
    | none => s
  s

/-- One attribute item of a Set-Cookie line (the body of the inner loop
of read_set_cookies, cookie.rs lines 123-176): split the trimmed item on
the equals sign, at most two parts, then dispatch on the lowercased key.
The samesite match of the source compares against the literal string
node, not none. -/
def readItem (c : Cookie) (v : String) : Except String Cookie :=
  let parts := splitChar '=' (trimAscii v)
  if parts.length > 2 then .error "cookie value invalid!"
  else
    let key := parts.headD ""
    let val := parts.getD 1 ""
    if strToLower key = "path" then
      .ok { c with path := if parts.length = 2 then some val else none }
    else if strToLower key = "domain" then
      .ok { c with domain := if parts.length = 2 then some val else none }
    else if strToLower key = "expires" then
      .error "expires attribute outside this embedding (impure clock)"
    else if strToLower key = "max-age" then
      if parts.length = 2 then
        match parseIntRust val with
        | some m => .ok { c with max_age := some m }
        | none => .error "set-cookie max-age invalid!"
      else .ok { c with max_age := none }
    else if strToLower key = "secure" then .ok { c with secure := true }
    else if strToLower key = "httponly" then .ok { c with httponly := true }
    else if strToLower key = "samesite" then
      .ok { c with same_site :=
        if parts.length = 2 then
          if strToLower val = "node" then some SameSite.None
          else if strToLower val = "strict" then some SameSite.Strict
          else if strToLower val = "lax" then some SameSite.Lax
          else none
        else none }
    else
      if parts.length = 2 then .ok { c with name := key, value := val }
      else .ok c

/-- Cookie::read_set_cookies (cookie.rs lines 116-183): each Set-Cookie
header line is trimmed, split on the semicolon, and folded through the
attribute dispatch starting from the default cookie. -/
def read_set_cookies (opt : Option (List String)) : Except String (List Cookie) :=
  match opt with
  | none => .ok []
  | some src =>
      src.foldlM
        (fun acc s => do
          let c ← (splitChar ';' (trimAscii s)).foldlM readItem Cookie.default
          pure (acc ++ [c]))
        []

end Cookie

/-! ### Request body fill (src/http/requester.rs lines 472-553)

Requester::fill_body reads the request body after the headers.  Its
inputs are embedded as: the method; the remaining valid bytes of the
initial read buffer after the request line and headers (buffered); the
sequence of byte chunks that subsequent stream reads return, in order,
with the stream at end of file once the sequence is exhausted (a read
then returns zero bytes); and the parsed value of the Content-Length
header, none when the header is absent.  Bytes are naturals below 256;
13 and 10 are carriage return and line feed.  The result is the body
stored on the request (the error is the 411 interrupt path).
-/

/-- The leading loop of fill_body (lines 476-490): consume buffered
bytes, skipping carriage returns and line feeds, until the first other
byte, which is pushed as the first body byte; an exhausted iterator
returns early with the body left empty. -/
def skipToFirstByte : List Nat → Option (Nat × List Nat)
  | [] => none
  | b :: rest => if b = 13 ∨ b = 10 then skipToFirstByte rest else some (b, rest)

/-- The re-read loop of fill_body (lines 506-513): before each read,
stop when the running count equals the decremented length or the last
read returned zero bytes; otherwise append the next chunk wholesale and
continue.  An exhausted chunk sequence is end of file: the read returns
zero bytes and the loop stops. -/
def readLoop (len : Nat) : List (List Nat) → Nat → Nat → List Nat
  | [], _, _ => []
  | c :: cs, count, sizePrev =>
      if count = len ∨ sizePrev = 0 then []
      else c ++ readLoop len cs (count + c.length) c.length

/-- Requester::fill_body (lines 472-553).  Only PATCH, PUT and POST
carry a body.  With Content-Length N greater than zero the source
decrements N (the first consumed byte counts), stages the first byte and
the rest of the buffer, then re-reads whole chunks until the count hits
the decremented length or end of file; with N equal to zero the body
stays empty; with N equal to minus one everything up to end of file is
the body; other negative values are the 411 error; a missing header
leaves the body empty. -/
def fill_body (m : Method) (buffered : List Nat) (chunks : List (List Nat))
    (contentLength : Option Int) : Except String (List Nat) :=
  match m with
  | .Patch | .Put | .Post =>
      match skipToFirstByte buffered with
      | none => .ok []
      | some (b, rest) =>
          match contentLength with
          | some len =>
              if 0 < len then
                let len2 := len - 1
                .ok ((b :: rest) ++ readLoop len2.toNat chunks rest.length rest.length)
              else if len = 0 then .ok []
              else if len = -1 then .ok ((b :: rest) ++ chunks.flatten)
              else .error "content len invalid from header failed!"
          | none => .ok []
  | _ => .ok []

/-! ### Context response commit (src/server/context.rs lines 237-243 and
src/http/requester.rs lines 742-773)

The Context stages a Response and commits it with response(), which sets
the executed flag and unconditionally serializes a clone of the staged
response onto the connection.  The embedding keeps the parts of the
state that the claim observes: the staged response, the executed flag,
and the log of serialized responses written to the stream.
-/

structure StatusM where
  code : Nat
  phrase : String
  deriving DecidableEq

structure ResponseM where
  version : Version
  status : StatusM
  header : Values
  body : String
  deriving DecidableEq

/-- Requester::response (requester.rs lines 742-773): the status line,
one line per header value, the blank line, then the staged body.
Response::get_write_content drains the clone being serialized, so the
bytes written are the staged body; the headers were already written
before the drain deletes Content-Length and Content-Type from the
clone. -/
def serializeResponse (r : ResponseM) : String :=
  r.version.asRef ++ " " ++ toString r.status.code ++ " " ++ r.status.phrase ++ "\r\n"
  ++ String.join (r.header.entries.map
      (fun p => String.join (p.2.map (fun v => p.1 ++ ": " ++ v ++ "\r\n"))))
  ++ "\r\n" ++ r.body

structure ContextM where
  executed : Bool
  response : ResponseM
  written : List String
  deriving DecidableEq

/-- Context::response (context.rs lines 237-243): set the executed flag
and write a clone of the staged response to the connection; there is no
guard on the flag, and errors of the write are only logged. -/
def ContextM.commit (ctx : ContextM) : ContextM :=
  { ctx with
      executed := true
      written := ctx.written ++ [serializeResponse ctx.response] }

/-! ### Claim-support definitions -/

/-- The wildcard binding names of a pattern, in segment order: the names
behind the colon-prefixed segments. -/
def wildNames (ps : List String) : List String :=
  ps.filterMap (fun s => if strStartsWith s ':' then some (strDrop1 s) else none)

/-- The expected bindings of a concretized pattern: each wildcard name
paired with the substituted segment, in segment order. -/
def wildPairs (σ : String → String) (ps : List String) : Fields :=
  ps.filterMap (fun s =>
    if strStartsWith s ':' then some (strDrop1 s, σ (strDrop1 s)) else none)

/-- Replace every wildcard segment of a pattern by the substituted
literal segment. -/
def concretize (σ : String → String) (ps : List String) : List String :=
  ps.map (fun s => if strStartsWith s ':' then σ (strDrop1 s) else s)

/-- The converted piece label of a pattern segment, as stored by add_fn:
the wildcard marker for colon segments, the segment itself otherwise. -/
def convPiece (piece : String) : String :=
  if strStartsWith piece ':' then "?" else piece

/-- The stored binding name of a pattern segment. -/
def convValue (piece : String) : Option String :=
  if strStartsWith piece ':' then some (strDrop1 piece) else none

/-- The linear trie that registering a single pattern below a fresh node
produces: a chain of one child per segment, the last one complete. -/
def chainNode (pat : String) (h : Nat) : Node → List String → Node
  | n, [] =>
      Node.mk (some pat) n.pattern_piece n.pattern_piece_value (some h) n.next_nodes
  | n, piece :: rest =>
      Node.mk n.pattern n.pattern_piece n.pattern_piece_value n.handler
        [chainNode pat h (Node.mk none (convPiece piece) (convValue piece) none []) rest]

/-- The complete node at the end of a single-pattern chain: it carries
the converted label of the last segment, the pattern and the handler. -/
def endNode (pat : String) (h : Nat) : List String → Node
  | [] => Node.mk (some pat) (convPiece "") (convValue "") (some h) []
  | [piece] => Node.mk (some pat) (convPiece piece) (convValue piece) (some h) []
  | _ :: piece :: rest => endNode pat h (piece :: rest)

/-- A concrete substitution for the path-parameter scenario of the
specification: a maps to X, every other name to Y. -/
def sigmaExample : String → String :=
  fun s => if s = "a" then "X" else "Y"

/-- The alignment condition under which the re-read loop of fill_body
stops exactly at the decremented Content-Length: before each chunk the
running count either has reached the target, or the previous read was
non-empty and the chunk fits inside the remaining target. -/
def aligns (len : Nat) : List (List Nat) → Nat → Nat → Bool
  | [], count, _ => count = len
  | c :: cs, count, sizePrev =>
      if count = len then true
      else if sizePrev = 0 then false
      else decide (count + c.length ≤ len) && aligns len cs (count + c.length) c.length

/-- A concrete staged context: HTTP/1.1, status 200 OK, one header, a
short body, nothing written yet. -/
def ctxExample : ContextM :=
  ⟨false, ⟨Version.HTTP_11, ⟨200, "OK"⟩, ⟨[("Content-Length", ["5"])]⟩, "hello"⟩, []⟩

/-- A concrete cookie carrying the SameSite None attribute. -/
def cookieSameSiteNone : Cookie :=
  { Cookie.default with name := "a", value := "b", same_site := some SameSite.None }

/-- A concrete header map with the Connection header set to close. -/
def headerConnClose : Header := ⟨[("Connection", ["close"])]⟩

/-- A concrete header map with the Connection header set to
keep-alive. -/
def headerConnKeepAlive : Header := ⟨[("Connection", ["keep-alive"])]⟩

/-- A concrete header map holding a header literally named close (the
only shape the source test of check_close reacts to). -/
def headerNamedClose : Header := ⟨[("close", ["x"])]⟩

/-! ## Theorems -/

/-- C4: check_close evaluated on the shapes the claim describes.  A
request header carrying Connection close under HTTP/1.1 yields false
(the connection is kept open), because the source tests for header names
close and keep-alive, never the value of the Connection header; a
Connection keep-alive header under HTTP/1.0 still closes; and a header
literally named close under HTTP/1.1 with the remove flag hits the
Connection unwrap panic (the none result). -/
theorem check_close_ignores_connection_value :
    Header.check_close headerConnClose Version.HTTP_11 false = some (false, headerConnClose)
    ∧ Header.check_close headerConnKeepAlive Version.HTTP_10 false
        = some (true, headerConnKeepAlive)
    ∧ Header.check_close headerNamedClose Version.HTTP_11 true = none := by
  decide

/-- C5: with only the pattern slash-a-slash-b registered for GET,
looking up slash-a succeeds and returns the intermediate node, whose
handler is absent — there is no terminal handler check in fetch_split,
so lookup does not fail on a strict prefix of a registered pattern. -/
theorem fetch_prefix_path_returns_handlerless_node :
    (Root.add Root.new "/a/b" Method.Get 7).map
      (fun r => (Root.fetch r "/a" Method.Get).map (fun p => (p.1.handler, p.2)))
      = .ok (some (none, [])) := by
  decide

/-- C6: the Set-Cookie round trip breaks on the SameSite None attribute:
serialization writes SameSite equals None, but the parser compares the
lowercased value against the literal string node, so the parsed cookie
loses the attribute and differs from the original. -/
theorem set_cookie_samesite_none_roundtrip_breaks :
    Cookie.toWire cookieSameSiteNone = "a=b; SameSite=None"
    ∧ Cookie.read_set_cookies (some [Cookie.toWire cookieSameSiteNone])
        = .ok [{ Cookie.default with name := "a", value := "b" }]
    ∧ ({ Cookie.default with name := "a", value := "b" } : Cookie) ≠ cookieSameSiteNone := by
  decide

/-- C7 counterexample: from_bytes accepts the empty byte sequence and
returns GET, although the empty sequence is not the ASCII name of any of
the twelve methods. -/
theorem from_bytes_empty_ok_cex :
    Method.from_bytes [] = .ok Method.Get
    ∧ (Method.allMethods.all (fun m => strBytes (Method.as_str m) ≠ []) = true) := by
  decide

/-- C8 counterexample: over the comma-and-space separated header value
br, gzip, deflate the negotiation returns none, not gzip: the pieces
after a comma keep their leading space and match no encoding. -/
theorem best_spaced_list_cex :
    AcceptEncoding.best "br, gzip, deflate" = none
    ∧ AcceptEncoding.best "br, gzip, deflate" ≠ some AcceptEncoding.GZip := by
  decide

/-- C8 amended: the negotiation over exactly-comma-separated lists
(no spaces) prefers gzip over deflate over zlib and ignores br, while a
list written with spaces after the commas loses every piece after the
first; the three boundary inputs of the claim evaluate to none, none and
deflate. -/
theorem best_boundary_evaluations :
    AcceptEncoding.best "br, gzip, deflate" = none
    ∧ AcceptEncoding.best "br" = none
    ∧ AcceptEncoding.best "deflate, zlib" = some AcceptEncoding.Deflate
    ∧ AcceptEncoding.best "br,gzip,deflate" = some AcceptEncoding.GZip
    ∧ AcceptEncoding.best "deflate,gzip" = some AcceptEncoding.GZip
    ∧ AcceptEncoding.best "zlib,deflate" = some AcceptEncoding.Deflate
    ∧ AcceptEncoding.best "br,zlib" = some AcceptEncoding.ZLib
    ∧ AcceptEncoding.best "zlib" = some AcceptEncoding.ZLib := by
  decide

/-- C9 counterexample: committing the same context twice writes to the
connection again — the write log after the second commit differs from
the log after the first. -/
theorem context_commit_twice_writes_again_cex :
    (ctxExample.commit.commit).written ≠ (ctxExample.commit).written := by
  decide

/-- C9 amended: a second commit appends the identical serialized
response to the connection once more; the staged response is unchanged
by both commits (each call serializes a clone) and the executed flag is
set.  Only the flag records the first commit; nothing suppresses the
second write. -/
theorem context_commit_twice_appends_and_preserves (ctx : ContextM) :
    (ctx.commit.commit).written
        = ctx.written ++ [serializeResponse ctx.response, serializeResponse ctx.response]
    ∧ (ctx.commit.commit).response = ctx.response
    ∧ (ctx.commit).response = ctx.response
    ∧ (ctx.commit.commit).executed = true := by
  refine ⟨?_, rfl, rfl, rfl⟩
  simp [ContextM.commit]

/-- C1 counterexample: with the literal pattern slash-x registered first
and the wildcard pattern slash-colon-c second (handlers 1 and 2), the
lookup of slash-x — the concretization of the wildcard pattern with c
substituted by x — returns handler 1 with empty bindings instead of
handler 2 with c bound to x. -/
theorem lookup_concretized_shadowed_by_literal_cex :
    ((Root.add Root.new "/x" Method.Get 1).bind (fun r => r.add "/:c" Method.Get 2)).map
      (fun r => (Root.fetch r "/x" Method.Get).map (fun p => (p.1.handler, p.2)))
      = .ok (some (some 1, []))
    ∧ (some ((some 1 : Option Nat), ([] : Fields)) ≠ some (some 2, [("c", "x")])) := by
  decide

/-- C2 counterexample: with the wildcard pattern slash-colon-c
registered before the literal pattern slash-x, the request slash-x —
whose segment equals the label of the literal sibling — routes to the
wildcard node (handler 1, binding c to x), because the lookup scans
children in insertion order rather than literals first. -/
theorem literal_segment_routed_to_wildcard_cex :
    ((Root.add Root.new "/:c" Method.Get 1).bind (fun r => r.add "/x" Method.Get 2)).map
      (fun r => (Root.fetch r "/x" Method.Get).map (fun p => (p.1.handler, p.2)))
      = .ok (some (some 1, [("c", "x")]))
    ∧ ((some 1 : Option Nat) ≠ some 2) := by
  decide

/-- C3 counterexample: a POST with Content-Length 2 whose body bytes are
line feed then 88 parses to the one-byte body 88 — the leading line feed
of the body is consumed by the newline-skipping loop and lost, so the
body length is not 2. -/
theorem fill_body_drops_leading_newline_cex :
    fill_body Method.Post [10, 88] [] (some 2) = .ok [88]
    ∧ ([88] : List Nat).length ≠ 2 := by
  decide

/-- Inserting a key into the backing map makes it the found binding. -/
theorem findInsertV (es : List (String × List String)) (k : String) (v : List String) :
    (Values.insertV es k v).find? (fun p => p.1 = k) = some (k, v) := by
  induction es with
  | nil => simp [Values.insertV]
  | cons hd tl ih =>
      obtain ⟨k', v'⟩ := hd
      by_cases hk : k' = k
      · subst hk
        simp [Values.insertV]
      · simp [Values.insertV, hk, List.find?, ih]

/-- Looking up an inserted key yields the inserted vector. -/
theorem lookupInsertV (es : List (String × List String)) (k : String) (v : List String) :
    Values.lookup ⟨Values.insertV es k v⟩ k = some v := by
  simp [Values.lookup, findInsertV]

/-- Folding add over further values appends them to the stored vector of
the key. -/
theorem addFoldLookup (k : String) (vs : List String) :
    ∀ (m : Values) (l : List String), m.lookup k = some l →
      ((vs.foldl (fun acc w => acc.add k w) m)).lookup k = some (l ++ vs) := by
  induction vs with
  | nil =>
      intro m l h
      simpa using h
  | cons w ws ih =>
      intro m l h
      have hstep : (m.add k w).lookup k = some (l ++ [w]) := by
        simp [Values.add, h, lookupInsertV]
      have := ih (m.add k w) (l ++ [w]) hstep
      simpa [List.append_assoc] using this

/-- Filtering the key out of the backing map leaves nothing for find to
return on that key. -/
theorem findFilterNe (es : List (String × List String)) (k : String) :
    (es.filter (fun p => ¬ p.1 = k)).find? (fun p => p.1 = k) = none := by
  induction es with
  | nil => simp
  | cons hd tl ih =>
      obtain ⟨k', v'⟩ := hd
      by_cases hk : k' = k
      · subst hk
        simp [ih]
      · simp [hk, ih]

/-- C10: the Values container behind headers, query and form parameters.
After adding the values v then vs under the key k into a fresh map, get
returns only the first value v; get on a fresh map is none; del returns
only the first value while removing the whole vector of the key, so the
key is gone afterwards. -/
theorem values_first_value_semantics (k v : String) (vs : List String) :
    ((v :: vs).foldl (fun acc w => acc.add k w) Values.new).get k = some v
    ∧ Values.new.get k = none
    ∧ (((v :: vs).foldl (fun acc w => acc.add k w) Values.new).del k).1 = some v
    ∧ (((v :: vs).foldl (fun acc w => acc.add k w) Values.new).del k).2.lookup k = none
    ∧ (((v :: vs).foldl (fun acc w => acc.add k w) Values.new).del k).2.contain k = false := by
  have hnew : Values.new.lookup k = none := by simp [Values.new, Values.lookup]
  have hfirst : (Values.new.add k v).lookup k = some [v] := by
    simp [Values.add, hnew, lookupInsertV]
  have hall : (vs.foldl (fun acc w => acc.add k w) (Values.new.add k v)).lookup k
      = some (v :: vs) := by
    simpa using addFoldLookup k vs (Values.new.add k v) [v] hfirst
  have hdel2 : ((vs.foldl (fun acc w => acc.add k w) (Values.new.add k v)).del k).2.lookup k
      = none := by
    simp only [Values.del, hall]
    simp only [Values.lookup]
    rw [findFilterNe]
    rfl
  refine ⟨?_, ?_, ?_, ?_, ?_⟩
  · simp only [List.foldl_cons]
    simp [Values.get, hall]
  · simp [Values.get, hnew]
  · simp only [List.foldl_cons]
    simp [Values.del, hall]
  · simp only [List.foldl_cons]
    exact hdel2
  · simp only [List.foldl_cons]
    simp [Values.contain, hdel2]

/-- C7 amended: from_bytes applied to the bytes of as_str returns the
method for each of the twelve methods, and every byte sequence that is
neither one of the twelve ASCII names nor the empty sequence fails; the
empty sequence is the one exception and parses as GET. -/
theorem from_bytes_roundtrip_and_failure :
    (∀ m : Method, Method.from_bytes (strBytes (Method.as_str m)) = .ok m)
    ∧ ∀ bs : List Nat, bs ≠ [] → (∀ m : Method, bs ≠ strBytes (Method.as_str m)) →
        ∃ e, Method.from_bytes bs = .error e := by
  constructor
  · decide
  · intro bs hne hnm
    unfold Method.from_bytes
    split_ifs <;>
      first
        | exact ⟨_, rfl⟩
        | exact absurd (List.length_eq_zero.mp ‹_›) hne
        | exact absurd ‹_› (hnm Method.Options)
        | exact absurd ‹_› (hnm Method.Get)
        | exact absurd ‹_› (hnm Method.Post)
        | exact absurd ‹_› (hnm Method.Put)
        | exact absurd ‹_› (hnm Method.Delete)
        | exact absurd ‹_› (hnm Method.Head)
        | exact absurd ‹_› (hnm Method.Trace)
        | exact absurd ‹_› (hnm Method.Connect)
        | exact absurd ‹_› (hnm Method.Patch)
        | exact absurd ‹_› (hnm Method.Link)
        | exact absurd ‹_› (hnm Method.UnLink)
        | exact absurd ‹_› (hnm Method.Pri)

/-- C7 witness: the round trip at GET and the failure at the three-byte
sequence omg. -/
theorem from_bytes_roundtrip_and_failure_witness :
    Method.from_bytes (strBytes (Method.as_str Method.Get)) = .ok Method.Get
    ∧ ∃ e, Method.from_bytes (strBytes "omg") = .error e :=
  ⟨from_bytes_roundtrip_and_failure.1 Method.Get,
   from_bytes_roundtrip_and_failure.2 (strBytes "omg") (by decide) (by decide)⟩

/-- Children that neither carry the request segment as label nor are
wildcard nodes are skipped by the scan. -/
theorem fetchScanAppendSkip (fsp : Node → Bool × Option (Node × Fields)) (piece : String)
    (pre l : List Node)
    (hpre : ∀ d ∈ pre, d.pattern_piece ≠ piece ∧ d.pattern_piece ≠ "?") :
    Node.fetchScan fsp piece (pre ++ l) = Node.fetchScan fsp piece l := by
  induction pre with
  | nil => rfl
  | cons d ds ih =>
      have h1 := (hpre d (by simp)).1
      have h2 := (hpre d (by simp)).2
      rw [List.cons_append]
      rw [Node.fetchScan, if_neg h1, if_neg h2]
      exact ih (fun e he => hpre e (by simp [he]))

/-- C2 amended: when the child whose label equals the request segment is
scanned before any wildcard sibling (every earlier child neither matches
the segment nor is a wildcard), the lookup routes the segment to that
literal child — the wildcard siblings after it are never consulted —
provided the literal subtree completes the match: either the segment is
final, or the rest of the path resolves inside the literal child. -/
theorem literal_child_scanned_first_wins (n c : Node) (pre cs : List Node)
    (piece : String) (rest : List String)
    (hn : n.next_nodes = pre ++ c :: cs) (hc : c.pattern_piece = piece)
    (hpre : ∀ d ∈ pre, d.pattern_piece ≠ piece ∧ d.pattern_piece ≠ "?") :
    (rest = [] → Node.fetch_fn n (piece :: rest) = some (c, []))
    ∧ (∀ res, rest ≠ [] → Node.fetch_fn c rest = some res →
        Node.fetch_fn n (piece :: rest) = some res) := by
  constructor
  · intro hrest
    subst hrest
    rw [Node.fetch_fn, hn, fetchScanAppendSkip _ _ _ _ hpre]
    rw [Node.fetchScan, if_pos hc]
  · intro res hrest hres
    obtain ⟨r, rs, rfl⟩ : ∃ r rs, rest = r :: rs := by
      cases rest with
      | nil => exact absurd rfl hrest
      | cons r rs => exact ⟨r, rs, rfl⟩
    rw [Node.fetch_fn, hn, fetchScanAppendSkip _ _ _ _ hpre]
    rw [Node.fetchScan, if_pos hc]
    simp [hres]

/-- C2 witness: a root with the literal child first and a wildcard
sibling second routes the matching one-segment request to the literal
child. -/
theorem literal_child_scanned_first_wins_witness :
    Node.fetch_fn
      (Node.mk none "" none none
        [Node.mk (some "/x") "x" none (some 2) [],
         Node.mk (some "/:c") "?" (some "c") (some 1) []]) ["x"]
      = some (Node.mk (some "/x") "x" none (some 2) [], []) :=
  (literal_child_scanned_first_wins
      (Node.mk none "" none none
        [Node.mk (some "/x") "x" none (some 2) [],
         Node.mk (some "/:c") "?" (some "c") (some 1) []])
      (Node.mk (some "/x") "x" none (some 2) [])
      [] [Node.mk (some "/:c") "?" (some "c") (some 1) []]
      "x" [] rfl rfl (by simp)).1 rfl

/-- When the alignment condition holds, the re-read loop returns exactly
the bytes missing up to the target count. -/
theorem readLoopAligned (len : Nat) :
    ∀ (chunks : List (List Nat)) (count sizePrev : Nat),
      aligns len chunks count sizePrev = true →
      count ≤ len ∧ (readLoop len chunks count sizePrev).length = len - count := by
  intro chunks
  induction chunks with
  | nil =>
      intro count sizePrev h
      have hcl : count = len := by simpa [aligns] using h
      subst hcl
      simp [readLoop]
  | cons c cs ih =>
      intro count sizePrev h
      by_cases hcl : count = len
      · subst hcl
        simp [readLoop]
      · rw [aligns, if_neg hcl] at h
        by_cases hsp : sizePrev = 0
        · rw [if_pos hsp] at h
          exact absurd h (by simp)
        · rw [if_neg hsp] at h
          rw [Bool.and_eq_true] at h
          have hle : count + c.length ≤ len := of_decide_eq_true h.1
          have hrec := ih (count + c.length) c.length h.2
          refine ⟨by omega, ?_⟩
          rw [readLoop, if_neg (not_or.mpr ⟨hcl, hsp⟩)]
          rw [List.length_append, hrec.2]
          omega

/-- C3 amended: for POST, PUT and PATCH requests whose first body byte
is neither carriage return nor line feed (the newline-skipping loop
would drop it), with the rest of the body split between the initial
buffer and stream chunks: when Content-Length is N greater than zero and
the chunk boundaries align so that the read count stops exactly at the
target, the parsed body has exactly N bytes; with N equal to zero the
body is empty; with N equal to minus one the body is everything up to
end of file. -/
theorem fill_body_content_length_exact (m : Method)
    (hm : m = Method.Post ∨ m = Method.Put ∨ m = Method.Patch)
    (b : Nat) (rest : List Nat) (chunks : List (List Nat)) (N : Int)
    (hb13 : b ≠ 13) (hb10 : b ≠ 10) :
    (0 < N → aligns (N - 1).toNat chunks rest.length rest.length = true →
      ∃ body, fill_body m (b :: rest) chunks (some N) = .ok body ∧ (body.length : Int) = N)
    ∧ (N = 0 → fill_body m (b :: rest) chunks (some N) = .ok [])
    ∧ (N = -1 → fill_body m (b :: rest) chunks (some N) = .ok ((b :: rest) ++ chunks.flatten)) := by
  have hskip : skipToFirstByte (b :: rest) = some (b, rest) := by
    rw [skipToFirstByte, if_neg (not_or.mpr ⟨hb13, hb10⟩)]
  rcases hm with rfl | rfl | rfl <;>
  · refine ⟨?_, ?_, ?_⟩
    · intro hN halign
      refine ⟨(b :: rest) ++ readLoop (N - 1).toNat chunks rest.length rest.length, ?_, ?_⟩
      · simp [fill_body, hskip, hN]
      · have hrl := readLoopAligned (N - 1).toNat chunks rest.length rest.length halign
        have h1 := hrl.1
        have hlen : ((b :: rest) ++ readLoop (N - 1).toNat chunks rest.length rest.length).length
            = (rest.length + 1) + ((N - 1).toNat - rest.length) := by
          rw [List.length_append, List.length_cons, hrl.2]
        rw [hlen]
        omega
    · intro hN
      subst hN
      simp [fill_body, hskip]
    · intro hN
      subst hN
      simp [fill_body, hskip]

/-- C3 witness: a POST whose two-byte body sits entirely in the initial
buffer with Content-Length 2 parses to a two-byte body. -/
theorem fill_body_content_length_exact_witness :
    ∃ body, fill_body Method.Post [97, 98] [] (some 2) = .ok body
      ∧ (body.length : Int) = 2 :=
  (fill_body_content_length_exact Method.Post (Or.inl rfl) 97 [98] [] 2
      (by decide) (by decide)).1 (by decide) (by decide)

/-- Registering a pattern below a fresh incomplete node produces the
linear chain with one child per segment. -/
theorem add_split_fresh (pat : String) (hdl : Nat) :
    ∀ (ps : List String) (n : Node), n.next_nodes = [] → n.pattern = none →
      Node.add_split n pat ps hdl = .ok (chainNode pat hdl n ps) := by
  intro ps
  induction ps with
  | nil =>
      intro n hnext hpat
      rw [Node.add_split, hpat, chainNode]
  | cons piece rest ih =>
      intro n hnext hpat
      rw [Node.add_split, hnext, Node.addScan]
      rw [ih (Node.mk none (if strStartsWith piece ':' then "?" else piece)
            (if strStartsWith piece ':' then some (strDrop1 piece) else none) none []) rfl rfl]
      rw [chainNode, convPiece, convValue]

/-- One lookup step: fetch_fn on a non-empty path scans the children
with fetch_split on the remaining segments. -/
theorem fetch_fn_cons (n : Node) (piece : String) (rest : List String) :
    Node.fetch_fn n (piece :: rest)
      = Node.fetchScan (fun c => Node.fetch_split c rest) piece n.next_nodes := by
  cases rest <;> rfl

/-- Concretization of a pattern, one segment at a time. -/
theorem concretize_cons (σ : String → String) (p : String) (l : List String) :
    concretize σ (p :: l)
      = (if strStartsWith p ':' then σ (strDrop1 p) else p) :: concretize σ l := rfl

/-- Wildcard names of a pattern headed by a wildcard segment. -/
theorem wildNames_cons_wild {p : String} (hp : strStartsWith p ':' = true)
    (l : List String) :
    wildNames (p :: l) = strDrop1 p :: wildNames l := by
  simp [wildNames, List.filterMap_cons, hp]

/-- Wildcard names of a pattern headed by a literal segment. -/
theorem wildNames_cons_lit {p : String} (hp : ¬ strStartsWith p ':' = true)
    (l : List String) :
    wildNames (p :: l) = wildNames l := by
  simp [wildNames, List.filterMap_cons, hp]

/-- Expected bindings of a pattern headed by a wildcard segment. -/
theorem wildPairs_cons_wild {p : String} (hp : strStartsWith p ':' = true)
    (σ : String → String) (l : List String) :
    wildPairs σ (p :: l) = (strDrop1 p, σ (strDrop1 p)) :: wildPairs σ l := by
  simp [wildPairs, List.filterMap_cons, hp]

/-- Expected bindings of a pattern headed by a literal segment. -/
theorem wildPairs_cons_lit {p : String} (hp : ¬ strStartsWith p ':' = true)
    (σ : String → String) (l : List String) :
    wildPairs σ (p :: l) = wildPairs σ l := by
  simp [wildPairs, List.filterMap_cons, hp]

/-- The chain keeps the label of the node it grows below. -/
theorem chainNode_pattern_piece (pat : String) (hdl : Nat) (n : Node) (l : List String) :
    (chainNode pat hdl n l).pattern_piece = n.pattern_piece := by
  cases l <;> rfl

/-- The chain keeps the stored binding name of the node it grows
below. -/
theorem chainNode_ppv (pat : String) (hdl : Nat) (n : Node) (l : List String) :
    (chainNode pat hdl n l).pattern_piece_value = n.pattern_piece_value := by
  cases l <;> rfl

/-- The expected bindings are the wildcard names each paired through the
substitution. -/
theorem wildPairs_eq_map (σ : String → String) (ps : List String) :
    wildPairs σ ps = (wildNames ps).map (fun a => (a, σ a)) := by
  induction ps with
  | nil => rfl
  | cons p rest ih =>
      by_cases hp : strStartsWith p ':'
      · rw [wildPairs_cons_wild hp, wildNames_cons_wild hp, List.map_cons, ih]
      · rw [wildPairs_cons_lit hp, wildNames_cons_lit hp, ih]

/-- Getting a listed key out of the paired map returns its substituted
value. -/
theorem mapGet_map_self (σ : String → String) :
    ∀ (l : List String) (a : String), a ∈ l →
      mapGet (l.map (fun x => (x, σ x))) a = some (σ a) := by
  intro l
  induction l with
  | nil =>
      intro a ha
      cases ha
  | cons x xs ih =>
      intro a ha
      by_cases hx : x = a
      · subst hx
        simp [mapGet]
      · have ha2 : a ∈ xs := by
          rcases List.mem_cons.mp ha with h | h
          · exact absurd h.symm hx
          · exact h
        have hd : (decide ((x, σ x).1 = a)) = false := by
          simp [hx]
        simp only [List.map_cons, mapGet, List.find?_cons, hd]
        exact ih a ha2

/-- Inserting a key absent from the bindings map prepends the pair. -/
theorem mapInsert_not_mem (m : Fields) (k v : String)
    (hk : ∀ p ∈ m, p.1 ≠ k) :
    mapInsert m k v = (k, v) :: m := by
  have hfalse : (m.any (fun p => p.1 = k)) = false := by
    rw [List.any_eq_false]
    intro p hp
    simpa using hk p hp
  simp [mapInsert, hfalse]

/-- The handler stored at the end of a non-empty chain. -/
theorem endNode_handler (pat : String) (hdl : Nat) :
    ∀ ps : List String, (endNode pat hdl ps).handler = some hdl := by
  intro ps
  induction ps with
  | nil => rfl
  | cons piece rest ih =>
      cases rest with
      | nil => rfl
      | cons q qs => simpa [endNode] using ih

/-- The pattern stored at the end of a non-empty chain. -/
theorem endNode_pattern (pat : String) (hdl : Nat) :
    ∀ ps : List String, (endNode pat hdl ps).pattern = some pat := by
  intro ps
  induction ps with
  | nil => rfl
  | cons piece rest ih =>
      cases rest with
      | nil => rfl
      | cons q qs => simpa [endNode] using ih

/-- Looking up the concretization of a single registered pattern walks
its chain and returns the complete node with the substituted
bindings. -/
theorem fetch_chain (σ : String → String) (pat : String) (hdl : Nat) :
    ∀ (ps : List String), ps ≠ [] →
      (wildNames ps).Nodup →
      (∀ a ∈ wildNames ps, σ a ≠ "?") →
      ∀ n : Node,
        Node.fetch_fn (chainNode pat hdl n ps) (concretize σ ps)
          = some (endNode pat hdl ps, wildPairs σ ps) := by
  intro ps
  induction ps with
  | nil =>
      intro hne
      exact absurd rfl hne
  | cons piece rest ih =>
      intro _ hnodup hσ n
      rw [chainNode, concretize_cons, fetch_fn_cons]
      simp only [Node.next_nodes]
      cases rest with
      | nil =>
          by_cases hp : strStartsWith piece ':'
          · have hnq : σ (strDrop1 piece) ≠ "?" :=
              hσ _ (by rw [wildNames_cons_wild hp]; exact List.mem_cons_self _ _)
            rw [if_pos hp, Node.fetchScan]
            rw [if_neg (by
              rw [chainNode_pattern_piece]
              simp [convPiece, hp]
              first
                | exact hnq
                | exact fun hh => hnq hh.symm)]
            rw [if_pos (by
              rw [chainNode_pattern_piece]
              simp [convPiece, hp])]
            rw [wildPairs_cons_wild hp]
            simp [Node.fetch_split, concretize, chainNode, endNode, convPiece, convValue,
              hp, mapInsert, wildPairs]
          · rw [if_neg hp, Node.fetchScan]
            rw [if_pos (by
              rw [chainNode_pattern_piece]
              simp [convPiece, hp])]
            rw [wildPairs_cons_lit hp]
            simp [Node.fetch_split, concretize, chainNode, endNode, convPiece, convValue,
              hp, wildPairs]
      | cons q qs =>
          have hrestne : (q :: qs : List String) ≠ [] := by simp
          have hsplit : ∀ c : Node,
              Node.fetch_split c (concretize σ (q :: qs))
                = (false, Node.fetch_fn c (concretize σ (q :: qs))) := by
            intro c
            rw [concretize_cons, Node.fetch_split]
          by_cases hp : strStartsWith piece ':'
          · have hnames := wildNames_cons_wild hp (q :: qs)
            have hnq : σ (strDrop1 piece) ≠ "?" :=
              hσ _ (by rw [hnames]; exact List.mem_cons_self _ _)
            have hnodup2 : (wildNames (q :: qs)).Nodup := by
              rw [hnames] at hnodup
              exact hnodup.of_cons
            have hnotin : strDrop1 piece ∉ wildNames (q :: qs) := by
              rw [hnames] at hnodup
              exact (List.nodup_cons.mp hnodup).1
            have hσ2 : ∀ a ∈ wildNames (q :: qs), σ a ≠ "?" := fun a ha =>
              hσ a (by rw [hnames]; exact List.mem_cons_of_mem _ ha)
            have hihres := ih hrestne hnodup2 hσ2
                (Node.mk none (convPiece piece) (convValue piece) none [])
            have hkeys : ∀ p ∈ wildPairs σ (q :: qs), p.1 ≠ strDrop1 piece := by
              intro p hpmem
              rw [wildPairs_eq_map] at hpmem
              obtain ⟨a, hamem, rfl⟩ := List.mem_map.mp hpmem
              exact fun hc => hnotin (hc ▸ hamem)
            rw [if_pos hp, Node.fetchScan]
            rw [if_neg (by
              rw [chainNode_pattern_piece]
              simp [convPiece, hp]
              first
                | exact hnq
                | exact fun hh => hnq hh.symm)]
            rw [if_pos (by
              rw [chainNode_pattern_piece]
              simp [convPiece, hp])]
            rw [hsplit, hihres]
            rw [wildPairs_cons_wild hp]
            simp only [chainNode_ppv]
            simp [convValue, hp, endNode,
              mapInsert_not_mem (wildPairs σ (q :: qs)) (strDrop1 piece)
                (σ (strDrop1 piece)) hkeys]
          · have hnames := wildNames_cons_lit hp (q :: qs)
            have hnodup2 : (wildNames (q :: qs)).Nodup := by
              rwa [hnames] at hnodup
            have hσ2 : ∀ a ∈ wildNames (q :: qs), σ a ≠ "?" := fun a ha =>
              hσ a (by rw [hnames]; exact ha)
            have hihres := ih hrestne hnodup2 hσ2
                (Node.mk none (convPiece piece) (convValue piece) none [])
            rw [if_neg hp, Node.fetchScan]
            rw [if_pos (by
              rw [chainNode_pattern_piece]
              simp [convPiece, hp])]
            rw [hsplit, hihres]
            rw [wildPairs_cons_lit hp]
            simp [endNode]

/-- C1 amended: a pattern of literal and colon-name wildcard segments
with pairwise distinct wildcard names, registered alone below a fresh
per-method root, when looked up at any concretization whose substituted
segments are not the wildcard marker, returns the complete node carrying
its handler and pattern, with bindings exactly the wildcard names paired
with the substituted segments. -/
theorem lookup_single_pattern_handler_and_bindings
    (ps : List String) (σ : String → String) (pat : String) (hdl : Nat)
    (hne : ps ≠ []) (hnodup : (wildNames ps).Nodup)
    (hσ : ∀ a ∈ wildNames ps, σ a ≠ "?") :
    ∃ trie, Node.add_split Node.new pat ps hdl = .ok trie
      ∧ ∃ nd, Node.fetch_fn trie (concretize σ ps) = some (nd, wildPairs σ ps)
          ∧ nd.handler = some hdl
          ∧ nd.pattern = some pat
          ∧ ∀ a ∈ wildNames ps, mapGet (wildPairs σ ps) a = some (σ a) := by
  refine ⟨chainNode pat hdl Node.new ps,
    add_split_fresh pat hdl ps Node.new rfl rfl, endNode pat hdl ps,
    fetch_chain σ pat hdl ps hne hnodup hσ Node.new,
    endNode_handler pat hdl ps, endNode_pattern pat hdl ps, ?_⟩
  intro a ha
  rw [wildPairs_eq_map]
  exact mapGet_map_self σ (wildNames ps) a ha

/-- C1 witness: the path-parameter scenario of the specification — the
pattern with segments m, n, test1, colon-a, c, d, colon-b, handler 5,
concretized through the substitution sending a to X and b to Y. -/
theorem lookup_single_pattern_handler_and_bindings_witness :
    ∃ trie, Node.add_split Node.new "/m/n/test1/:a/c/d/:b"
        ["m", "n", "test1", ":a", "c", "d", ":b"] 5 = .ok trie
      ∧ ∃ nd, Node.fetch_fn trie
            (concretize sigmaExample ["m", "n", "test1", ":a", "c", "d", ":b"])
          = some (nd, wildPairs sigmaExample ["m", "n", "test1", ":a", "c", "d", ":b"])
          ∧ nd.handler = some 5
          ∧ nd.pattern = some "/m/n/test1/:a/c/d/:b"
          ∧ ∀ a ∈ wildNames ["m", "n", "test1", ":a", "c", "d", ":b"],
              mapGet (wildPairs sigmaExample ["m", "n", "test1", ":a", "c", "d", ":b"]) a
                = some (sigmaExample a) :=
  lookup_single_pattern_handler_and_bindings
    ["m", "n", "test1", ":a", "c", "d", ":b"] sigmaExample "/m/n/test1/:a/c/d/:b" 5
    (by decide) (by decide) (by decide)

end Starry
